import Mathlib

/-!
Shallow embedding of the table core of `dd-cli` (`cmd/cli/cmds/rum.go`):
the record flattener (`flattenMapIntoColumns`, `flattenActions`) and the
column selector (`collectContextColumns`), together with theorems about
their behaviour.

Modelling conventions:
* Go's dynamic `interface{}` context values become the inductive `Value`:
  either an opaque scalar leaf or a string-keyed object.  A Go
  `map[string]interface{}` is embedded as an association list
  `List (String × Value)` whose list order is the (otherwise unspecified)
  iteration order of the Go map; within one map all keys are distinct.
* A Go map that is built up by assignments (`ret[k] = v`) is embedded as an
  association list updated by `mapInsert`, which overwrites the binding of
  an existing key and appends a new key at the end; map contents are read
  through `mapLookup`.
* The type assertion `action.Context.(map[string]interface{})` can panic in
  Go; `flattenAction`/`flattenActions` therefore return an `Except`.
-/

namespace DdCli

/-- Opaque scalar leaves of a context tree.  The Go code never inspects
leaf values; the constructors only witness that leaves of several dynamic
types occur. -/
inductive Scalar where
  | str : String → Scalar
  | int : Int → Scalar
  | bool : Bool → Scalar
  | null : Scalar
deriving DecidableEq, Repr

/-- A dynamic context value: a scalar leaf, or a nested string-keyed
mapping (`map[string]interface{}` in the Go source), embedded as an
association list in iteration order. -/
inductive Value where
  | scalar : Scalar → Value
  | obj : List (String × Value) → Value

/-- One RUM action record (struct `Action` in rum.go).  The `Attributes`
field of the Go struct is only used by the JSON output path, which
bypasses the flattening core, so it is not modelled.  `Context` is `none`
when the Go interface value is `nil`. -/
structure Action where
  Name : String
  Context : Option Value

/-- Go `strings.HasPrefix s pre`, expressed on the character data. -/
def goStartsWith (s pre : String) : Bool := pre.data.isPrefixOf s.data

/-- Go `strings.HasSuffix s suf`, expressed on the character data. -/
def goEndsWith (s suf : String) : Bool := suf.data.isSuffixOf s.data

/-- The pattern test applied (twice, inline) in `collectContextColumns`:
a pattern ending in the separator "." matches by prefix, any other
pattern matches by exact equality. -/
def matchesPattern (pat key : String) : Bool :=
  if goEndsWith pat "." then goStartsWith key pat else key == pat

/-- Assignment `m[k] = v` on a Go map embedded as an association list:
overwrite the binding of an existing key in place, append a fresh key. -/
def mapInsert {α : Type} : List (String × α) → String → α → List (String × α)
  | [], k, v => [(k, v)]
  | (k', v') :: rest, k, v =>
      if k = k' then (k, v) :: rest else (k', v') :: mapInsert rest k v

/-- Read access `m[k]` on a Go map embedded as an association list. -/
def mapLookup {α : Type} : List (String × α) → String → Option α
  | [], _ => none
  | (k, v) :: rest, key => if key = k then some v else mapLookup rest key

/-- The sequence of assignments `ret[...] = ...` performed by
`flattenMapIntoColumns` on `ret`, in iteration order: a scalar value is
emitted under its own key, an object value contributes its recursively
flattened entries re-keyed with `key ++ "." ++ childKey`
(`fmt.Sprintf("%s.%s", key, k)` in the source). -/
def flattenEntries : List (String × Value) → List (String × Scalar)
  | [] => []
  | (key, Value.scalar s) :: rest => (key, s) :: flattenEntries rest
  | (key, Value.obj v) :: rest =>
      (flattenEntries v).map (fun p => (key ++ "." ++ p.1, p.2)) ++ flattenEntries rest

/-- Play a sequence of assignments onto an embedded Go map. -/
def insertAll {α : Type} (m : List (String × α)) (entries : List (String × α)) :
    List (String × α) :=
  entries.foldl (fun ret p => mapInsert ret p.1 p.2) m

/-- Build a fresh Go map (`ret := map[string]interface{}{}`) from a
sequence of assignments. -/
def buildMap {α : Type} (entries : List (String × α)) : List (String × α) :=
  insertAll [] entries

/-- `flattenMapIntoColumns` from rum.go: flatten one nested mapping into a
flat mapping from dotted key path to leaf value. -/
def flattenMapIntoColumns (rows : List (String × Value)) : List (String × Scalar) :=
  buildMap (flattenEntries rows)

/-- The per-record body of `flattenActions`: start from
`row["name"] = action.Name`, then, when the context is present, assert
that it is a mapping (a failed assertion panics in Go, modelled as
`Except.error`) and copy in its flattened entries. -/
def flattenAction (action : Action) : Except String (List (String × Scalar)) :=
  let row := mapInsert [] "name" (Scalar.str action.Name)
  match action.Context with
  | none => Except.ok row
  | some (Value.obj context) => Except.ok (insertAll row (flattenEntries context))
  | some (Value.scalar _) =>
      Except.error "interface conversion: Context is not a map[string]interface{}"

/-- `flattenActions` from rum.go: flatten every record; the first failed
context type assertion aborts the run. -/
def flattenActions : List Action → Except String (List (List (String × Scalar)))
  | [] => Except.ok []
  | action :: rest =>
      match flattenAction action with
      | Except.error e => Except.error e
      | Except.ok row =>
          match flattenActions rest with
          | Except.error e => Except.error e
          | Except.ok rows => Except.ok (row :: rows)

/-- Insertion `ret[key] = nil` on the working set of column names of
`collectContextColumns`, keeping only the keys (the stored values are
always `nil`). -/
def setInsert : List String → String → List String
  | [], k => [k]
  | x :: xs, k => if k = x then x :: xs else x :: setInsert xs k

/-- The body of the `Keys:` loop of `collectContextColumns` for a single
key of a single row: skip the key `"name"`; when the filter list is
non-empty and some filter pattern matches, skip the key (`continue Keys`);
otherwise include it — unconditionally when the field list is empty, and
when some field pattern matches otherwise. -/
def collectKey (fields filters : List String) (ret : List String) (key : String) :
    List String :=
  if key ≠ "name" then
    if 0 < filters.length ∧ filters.any (fun f => matchesPattern f key) = true then ret
    else
      if 0 < fields.length then
        if fields.any (fun f => matchesPattern f key) = true then setInsert ret key else ret
      else setInsert ret key
  else ret

/-- `collectContextColumns` from rum.go: scan every key of every flattened
row and accumulate the selected column names.  The Go function returns the
keys of the working map in unspecified order; the embedding returns them
in first-insertion order. -/
def collectContextColumns (rows : List (List (String × Scalar)))
    (fields filters : List String) : List String :=
  rows.foldl (fun ret row => (row.map Prod.fst).foldl (collectKey fields filters) ret) []

/-- Modelled from the spec (§3, §4.1): the dotted key paths of the context
leaves, "dot-joined paths of the nested keys that led to a non-mapping
value".  Used to compare the flattener's output keys against the spec's
description of them. -/
def objLeafPaths : List (String × Value) → List String
  | [] => []
  | (key, Value.scalar _) :: rest => key :: objLeafPaths rest
  | (key, Value.obj v) :: rest =>
      (objLeafPaths v).map (fun p => key ++ "." ++ p) ++ objLeafPaths rest

/-- Well-formedness of a record context as assumed by the spec (§7):
absent, or a mapping. -/
def contextWellFormed : Option Value → Bool
  | none => true
  | some (Value.obj _) => true
  | some (Value.scalar _) => false

/-! Helper lemmas about the embedded Go map operations. -/

theorem goStartsWith_iff (s pre : String) : goStartsWith s pre = true ↔ ∃ t, s = pre ++ t := by
  rw [goStartsWith, List.isPrefixOf_iff_prefix]
  constructor
  · rintro ⟨t, ht⟩
    exact ⟨⟨t⟩, String.ext ht.symm⟩
  · rintro ⟨t, ht⟩
    exact ⟨t.data, by rw [ht, String.data_append]⟩

theorem mem_keys_mapInsert {α : Type} (m : List (String × α)) (k : String) (v : α)
    (x : String) : x ∈ (mapInsert m k v).map Prod.fst ↔ x = k ∨ x ∈ m.map Prod.fst := by
  induction m with
  | nil => simp [mapInsert]
  | cons p rest ih =>
      obtain ⟨k', v'⟩ := p
      by_cases h : k = k'
      · subst h
        simp [mapInsert]
      · simp [mapInsert, h, ih]
        tauto

theorem lookup_mapInsert {α : Type} (m : List (String × α)) (k : String) (v : α)
    (x : String) :
    mapLookup (mapInsert m k v) x = if x = k then some v else mapLookup m x := by
  induction m with
  | nil => simp [mapInsert, mapLookup]
  | cons p rest ih =>
      obtain ⟨k', v'⟩ := p
      by_cases h : k = k'
      · subst h
        simp only [mapInsert, if_pos rfl, mapLookup]
        split_ifs <;> rfl
      · simp only [mapInsert, if_neg h, mapLookup, ih]
        split_ifs with h1 h2 <;> simp_all

theorem mapInsert_of_not_mem {α : Type} {m : List (String × α)} {k : String} (v : α)
    (h : k ∉ m.map Prod.fst) : mapInsert m k v = m ++ [(k, v)] := by
  induction m with
  | nil => simp [mapInsert]
  | cons p rest ih =>
      obtain ⟨k', v'⟩ := p
      simp only [List.map_cons, List.mem_cons] at h
      push_neg at h
      simp [mapInsert, h.1, ih h.2]

theorem lookup_insertAll_of_not_mem {α : Type} :
    ∀ (entries m : List (String × α)) (x : String), x ∉ entries.map Prod.fst →
      mapLookup (insertAll m entries) x = mapLookup m x
  | [], _, _, _ => rfl
  | (k, v) :: rest, m, x, h => by
      simp only [List.map_cons, List.mem_cons] at h
      push_neg at h
      show mapLookup (insertAll (mapInsert m k v) rest) x = mapLookup m x
      rw [lookup_insertAll_of_not_mem rest _ x h.2, lookup_mapInsert, if_neg h.1]

theorem mem_keys_insertAll {α : Type} :
    ∀ (entries m : List (String × α)) (x : String),
      x ∈ (insertAll m entries).map Prod.fst ↔
        x ∈ m.map Prod.fst ∨ x ∈ entries.map Prod.fst
  | [], m, x => by simp [insertAll]
  | (k, v) :: rest, m, x => by
      show x ∈ (insertAll (mapInsert m k v) rest).map Prod.fst ↔ _
      rw [mem_keys_insertAll rest _ x, mem_keys_mapInsert]
      simp only [List.map_cons, List.mem_cons]
      tauto

theorem insertAll_eq_append {α : Type} :
    ∀ (entries m : List (String × α)),
      (m.map Prod.fst ++ entries.map Prod.fst).Nodup → insertAll m entries = m ++ entries
  | [], m, _ => by simp [insertAll]
  | (k, v) :: rest, m, h => by
      have hk : k ∉ m.map Prod.fst := by
        rw [List.nodup_append] at h
        intro hmem
        exact h.2.2 hmem (by simp)
      show insertAll (mapInsert m k v) rest = m ++ (k, v) :: rest
      rw [mapInsert_of_not_mem v hk]
      rw [insertAll_eq_append rest (m ++ [(k, v)]) (by simpa using h)]
      simp

theorem buildMap_eq_self {α : Type} {l : List (String × α)}
    (h : (l.map Prod.fst).Nodup) : buildMap l = l := by
  have := insertAll_eq_append l [] (by simpa using h)
  simpa [buildMap] using this

theorem mem_of_lookup_eq_some {α : Type} :
    ∀ {l : List (String × α)} {x : String} {v : α},
      mapLookup l x = some v → (x, v) ∈ l
  | [], _, _, h => by simp [mapLookup] at h
  | (k, w) :: rest, x, v, h => by
      by_cases hx : x = k
      · subst hx
        have h2 : w = v := by simpa [mapLookup] using h
        subst h2
        exact List.mem_cons_self _ _
      · simp only [mapLookup, if_neg hx] at h
        exact List.mem_cons_of_mem _ (mem_of_lookup_eq_some h)

theorem lookup_of_mem_nodup {α : Type} :
    ∀ {l : List (String × α)} {x : String} {v : α},
      (l.map Prod.fst).Nodup → (x, v) ∈ l → mapLookup l x = some v
  | [], _, _, _, h => by simp at h
  | (k, w) :: rest, x, v, hnd, h => by
      simp only [List.map_cons, List.nodup_cons] at hnd
      rcases List.mem_cons.mp h with h1 | h1
      · injection h1 with h1a h1b
        subst h1a
        subst h1b
        simp [mapLookup]
      · have hx : x ≠ k := by
          rintro rfl
          exact hnd.1 (List.mem_map_of_mem Prod.fst h1)
        simp only [mapLookup, if_neg hx]
        exact lookup_of_mem_nodup hnd.2 h1

theorem lookup_eq_none_iff {α : Type} :
    ∀ (l : List (String × α)) (x : String),
      mapLookup l x = none ↔ x ∉ l.map Prod.fst
  | [], x => by simp [mapLookup]
  | (k, w) :: rest, x => by
      by_cases hx : x = k
      · subst hx
        simp [mapLookup]
      · simp [mapLookup, hx, lookup_eq_none_iff rest x]

theorem lookup_perm_of_nodup {α : Type} {l₁ l₂ : List (String × α)}
    (hp : l₁.Perm l₂) (hnd : (l₁.map Prod.fst).Nodup) (x : String) :
    mapLookup l₁ x = mapLookup l₂ x := by
  have hkeys : (l₁.map Prod.fst).Perm (l₂.map Prod.fst) := hp.map Prod.fst
  have hnd₂ : (l₂.map Prod.fst).Nodup := hkeys.nodup_iff.mp hnd
  cases h : mapLookup l₁ x with
  | none =>
      have := (lookup_eq_none_iff l₁ x).mp h
      exact ((lookup_eq_none_iff l₂ x).mpr (fun hm => this (hkeys.mem_iff.mpr hm))).symm
  | some v =>
      have hm : (x, v) ∈ l₂ := hp.mem_iff.mp (mem_of_lookup_eq_some h)
      exact (lookup_of_mem_nodup hnd₂ hm).symm

/-! Helper lemmas about the flattener. -/

theorem flattenEntries_keys : ∀ (o : List (String × Value)),
    (flattenEntries o).map Prod.fst = objLeafPaths o
  | [] => by simp [flattenEntries, objLeafPaths]
  | (key, Value.scalar s) :: rest => by
      simp [flattenEntries, objLeafPaths, flattenEntries_keys rest]
  | (key, Value.obj v) :: rest => by
      simp only [flattenEntries, objLeafPaths, List.map_append, List.map_map]
      rw [flattenEntries_keys rest]
      rw [show (Prod.fst ∘ fun p : String × Scalar => (key ++ "." ++ p.1, p.2))
            = (fun x => key ++ "." ++ x) ∘ Prod.fst from rfl]
      rw [← List.map_map, flattenEntries_keys v]

/-- The assignments performed by a single key/value pair of the iterated
mapping. -/
def entryFlat : String × Value → List (String × Scalar)
  | (key, Value.scalar s) => [(key, s)]
  | (key, Value.obj v) => (flattenEntries v).map (fun p => (key ++ "." ++ p.1, p.2))

theorem flattenEntries_eq_flatMap (o : List (String × Value)) :
    flattenEntries o = o.flatMap entryFlat := by
  induction o with
  | nil => simp [flattenEntries]
  | cons p rest ih =>
      match p with
      | (key, Value.scalar s) => simp [flattenEntries, entryFlat, ih]
      | (key, Value.obj v) => simp [flattenEntries, entryFlat, ih]

theorem flattenEntries_perm {o₁ o₂ : List (String × Value)} (h : o₁.Perm o₂) :
    (flattenEntries o₁).Perm (flattenEntries o₂) := by
  rw [flattenEntries_eq_flatMap, flattenEntries_eq_flatMap]
  exact h.flatMap_right entryFlat

/-! Helper lemmas about the column selector. -/

theorem mem_setInsert (l : List String) (k x : String) :
    x ∈ setInsert l k ↔ x = k ∨ x ∈ l := by
  induction l with
  | nil => simp [setInsert]
  | cons y ys ih =>
      by_cases h : k = y
      · subst h
        simp [setInsert]
      · simp [setInsert, h, ih]
        tauto

theorem nodup_setInsert {l : List String} (k : String) (h : l.Nodup) :
    (setInsert l k).Nodup := by
  induction l with
  | nil => simp [setInsert]
  | cons y ys ih =>
      simp only [List.nodup_cons] at h
      by_cases hk : k = y
      · subst hk
        simpa [setInsert] using h
      · simp only [setInsert, if_neg hk, List.nodup_cons, mem_setInsert]
        refine ⟨fun hc => ?_, ih h.2⟩
        rcases hc with hc | hc
        · exact hk hc.symm
        · exact h.1 hc


/-- The condition under which one occurrence of a key is added to the
working column set by the `Keys:` loop: the key is not "name", is not
excluded by a non-empty filter list, and is admitted by the field list
(which admits everything when empty). -/
def includeCond (fields filters : List String) (key : String) : Prop :=
  key ≠ "name"
  ∧ ¬(filters ≠ [] ∧ ∃ f ∈ filters, matchesPattern f key = true)
  ∧ (fields = [] ∨ ∃ f ∈ fields, matchesPattern f key = true)

theorem mem_collectKey {fields filters : List String} {ret : List String}
    {x key : String} :
    x ∈ collectKey fields filters ret key ↔
      x ∈ ret ∨ (x = key ∧ includeCond fields filters key) := by
  by_cases h1 : key = "name"
  · subst h1
    simp [collectKey, includeCond]
  · by_cases h2 : 0 < filters.length ∧ filters.any (fun f => matchesPattern f key) = true
    · have hcond : ¬ includeCond fields filters key := by
        intro hc
        exact hc.2.1 ⟨List.length_pos.mp h2.1, List.any_eq_true.mp h2.2⟩
      simp only [collectKey, if_pos (by exact h1), if_pos h2]
      tauto
    · by_cases h3 : 0 < fields.length
      · by_cases h4 : fields.any (fun f => matchesPattern f key) = true
        · have hcond : includeCond fields filters key := by
            refine ⟨h1, fun hc => h2 ⟨List.length_pos.mpr hc.1, List.any_eq_true.mpr hc.2⟩, ?_⟩
            exact Or.inr (List.any_eq_true.mp h4)
          simp only [collectKey, if_pos (by exact h1), if_neg h2, if_pos h3, if_pos h4,
            mem_setInsert]
          tauto
        · have hcond : ¬ includeCond fields filters key := by
            rintro ⟨-, -, hc | hc⟩
            · rw [hc] at h3
              simp at h3
            · exact h4 (List.any_eq_true.mpr hc)
          simp only [collectKey, if_pos (by exact h1), if_neg h2, if_pos h3, if_neg h4]
          tauto
      · have hfields : fields = [] := by
          rcases fields with _ | ⟨f, fs⟩
          · rfl
          · simp at h3
        have hcond : includeCond fields filters key := by
          exact ⟨h1, fun hc => h2 ⟨List.length_pos.mpr hc.1, List.any_eq_true.mpr hc.2⟩,
            Or.inl hfields⟩
        simp only [collectKey, if_pos (by exact h1), if_neg h2, if_neg h3, mem_setInsert]
        tauto

theorem nodup_collectKey {fields filters : List String} {ret : List String}
    {key : String} (h : ret.Nodup) : (collectKey fields filters ret key).Nodup := by
  unfold collectKey
  split_ifs <;> first | exact h | exact nodup_setInsert key h

theorem mem_foldl_collectKey (fields filters : List String) :
    ∀ (keys : List String) (ret : List String) (x : String),
      x ∈ keys.foldl (collectKey fields filters) ret ↔
        x ∈ ret ∨ (x ∈ keys ∧ includeCond fields filters x)
  | [], ret, x => by simp
  | k :: ks, ret, x => by
      simp only [List.foldl_cons, mem_foldl_collectKey fields filters ks, mem_collectKey,
        List.mem_cons]
      constructor
      · rintro (((hr | ⟨rfl, hc⟩) | hks))
        · exact Or.inl hr
        · exact Or.inr ⟨Or.inl rfl, hc⟩
        · exact Or.inr ⟨Or.inr hks.1, hks.2⟩
      · rintro (hr | ⟨hk | hk, hc⟩)
        · exact Or.inl (Or.inl hr)
        · exact Or.inl (Or.inr ⟨hk, hk ▸ hc⟩)
        · exact Or.inr ⟨hk, hc⟩

theorem nodup_foldl_collectKey (fields filters : List String) :
    ∀ (keys : List String) (ret : List String), ret.Nodup →
      (keys.foldl (collectKey fields filters) ret).Nodup
  | [], _, h => h
  | _ :: ks, _, h =>
      nodup_foldl_collectKey fields filters ks _ (nodup_collectKey h)

theorem mem_collectContextColumns_iff (rows : List (List (String × Scalar)))
    (fields filters : List String) (x : String) :
    x ∈ collectContextColumns rows fields filters ↔
      (∃ row ∈ rows, x ∈ row.map Prod.fst) ∧ includeCond fields filters x := by
  suffices h : ∀ (ret : List String),
      x ∈ rows.foldl (fun ret row => (row.map Prod.fst).foldl (collectKey fields filters) ret)
        ret ↔
      x ∈ ret ∨ ((∃ row ∈ rows, x ∈ row.map Prod.fst) ∧ includeCond fields filters x) by
    have := h []
    simpa [collectContextColumns] using this
  induction rows with
  | nil => intro ret; simp
  | cons row rest ih =>
      intro ret
      simp only [List.foldl_cons, ih, mem_foldl_collectKey, List.mem_cons]
      constructor
      · rintro ((hr | ⟨hk, hc⟩) | ⟨⟨r, hr, hx⟩, hc⟩)
        · exact Or.inl hr
        · exact Or.inr ⟨⟨row, Or.inl rfl, hk⟩, hc⟩
        · exact Or.inr ⟨⟨r, Or.inr hr, hx⟩, hc⟩
      · rintro (hr | ⟨⟨r, hr | hr, hx⟩, hc⟩)
        · exact Or.inl (Or.inl hr)
        · exact Or.inl (Or.inr ⟨hr ▸ hx, hc⟩)
        · exact Or.inr ⟨⟨r, hr, hx⟩, hc⟩

theorem nodup_collectContextColumns (rows : List (List (String × Scalar)))
    (fields filters : List String) :
    (collectContextColumns rows fields filters).Nodup := by
  suffices h : ∀ (ret : List String), ret.Nodup →
      (rows.foldl (fun ret row => (row.map Prod.fst).foldl (collectKey fields filters) ret)
        ret).Nodup by
    exact h [] List.nodup_nil
  induction rows with
  | nil => intro ret hr; exact hr
  | cons row rest ih =>
      intro ret hr
      exact ih _ (nodup_foldl_collectKey fields filters _ _ hr)

/-! Theorems for the specification claims. -/

/-- Claim C1: for every flattened record key, if the filter list is
non-empty and some filter pattern matches the key, `collectContextColumns`
excludes that key from the resulting column set, regardless of whether any
field pattern also matches it. -/
theorem filter_match_excludes_key (rows : List (List (String × Scalar)))
    (fields filters : List String) (key : String)
    (hne : filters ≠ []) (hm : ∃ f ∈ filters, matchesPattern f key = true) :
    key ∉ collectContextColumns rows fields filters := by
  intro hmem
  have h := (mem_collectContextColumns_iff rows fields filters key).mp hmem
  exact h.2.2.1 ⟨hne, hm⟩

/-- Witness for C1: with filters = ["page."] and fields = ["page.url"], a
record with key "page.url" yields no such column. -/
theorem filter_match_excludes_key_witness :
    "page.url" ∉ collectContextColumns
      [[("name", Scalar.str "click"), ("page.url", Scalar.str "/a")]]
      ["page.url"] ["page."] :=
  filter_match_excludes_key _ _ _ _ (by decide) ⟨"page.", by decide, by decide⟩

/-- Claim C2: a pattern ending in the separator "." matches exactly the
keys that start with the pattern text; any other pattern matches exactly
the key equal to it; and when the field list is non-empty, a key that is
not excluded by the filters is selected iff it occurs in some record, is
not "name", and at least one field pattern matches it. -/
theorem pattern_matching_semantics :
    (∀ pat key : String, goEndsWith pat "." = true →
        (matchesPattern pat key = true ↔ ∃ t, key = pat ++ t))
    ∧ (∀ pat key : String, goEndsWith pat "." = false →
        (matchesPattern pat key = true ↔ key = pat))
    ∧ (∀ (rows : List (List (String × Scalar))) (fields filters : List String)
          (key : String), fields ≠ [] →
        ¬(∃ f ∈ filters, matchesPattern f key = true) →
        (key ∈ collectContextColumns rows fields filters ↔
          key ≠ "name" ∧ (∃ row ∈ rows, key ∈ row.map Prod.fst)
            ∧ ∃ f ∈ fields, matchesPattern f key = true)) := by
  refine ⟨?_, ?_, ?_⟩
  · intro pat key h
    rw [matchesPattern, if_pos h]
    exact goStartsWith_iff key pat
  · intro pat key h
    rw [matchesPattern, if_neg (by simp [h])]
    exact beq_iff_eq
  · intro rows fields filters key hf hnx
    rw [mem_collectContextColumns_iff]
    unfold includeCond
    constructor
    · rintro ⟨hocc, hname, -, hincl | hincl⟩
      · exact absurd hincl hf
      · exact ⟨hname, hocc, hincl⟩
    · rintro ⟨hname, hocc, hincl⟩
      exact ⟨hocc, hname, fun hc => hnx hc.2, Or.inr hincl⟩

/-- Witness for C2: concrete matches and one concrete inclusion. -/
theorem pattern_matching_semantics_witness :
    matchesPattern "page." "page.url" = true
    ∧ matchesPattern "page." "page.referrer" = true
    ∧ matchesPattern "page." "pageviews" = false
    ∧ matchesPattern "page" "page" = true
    ∧ matchesPattern "page" "pageviews" = false
    ∧ ("page.url" ∈ collectContextColumns
          [[("name", Scalar.str "click"), ("page.url", Scalar.str "/a"),
            ("device.type", Scalar.str "mobile")]] ["page.url"] [] ↔
        "page.url" ≠ "name"
          ∧ (∃ row ∈ [[("name", Scalar.str "click"), ("page.url", Scalar.str "/a"),
              ("device.type", Scalar.str "mobile")]], "page.url" ∈ row.map Prod.fst)
          ∧ ∃ f ∈ ["page.url"], matchesPattern f "page.url" = true) :=
  ⟨(pattern_matching_semantics.1 "page." "page.url" (by decide)).mpr ⟨"url", by decide⟩,
   by decide, by decide,
   (pattern_matching_semantics.2.1 "page" "page" (by decide)).mpr rfl,
   by decide,
   pattern_matching_semantics.2.2 _ _ _ "page.url" (by decide) (by decide)⟩

/-- Claim C3 counterexample: the record named "click" whose context itself
contains the key "name" flattens to a row whose "name" entry is the
context value, not the record name: the later assignment from the
flattened context overwrites row["name"]. -/
theorem flatten_name_overwritten_cex :
    (flattenAction
        { Name := "click",
          Context := some (Value.obj [("name", Value.scalar (Scalar.str "/a"))]) }).map
        (fun row => mapLookup row "name")
      = Except.ok (some (Scalar.str "/a"))
    ∧ Scalar.str "/a" ≠ Scalar.str "click" := by
  constructor
  · simp [flattenAction, flattenEntries, insertAll, mapInsert, mapLookup, Except.map]
  · decide

/-- Claim C3 (amended): for every record whose context is absent or is a
mapping none of whose flattened leaf paths equals "name", the flattened
row maps "name" to the record name. -/
theorem flatten_name_preserved (a : Action) (o : List (String × Value))
    (h : a.Context = none ∨ a.Context = some (Value.obj o))
    (hn : "name" ∉ objLeafPaths o) :
    (flattenAction a).map (fun row => mapLookup row "name")
      = Except.ok (some (Scalar.str a.Name)) := by
  rcases h with h | h
  · simp [flattenAction, h, mapInsert, mapLookup, Except.map]
  · have hkeys : "name" ∉ (flattenEntries o).map Prod.fst := by
      rw [flattenEntries_keys o]
      exact hn
    simp only [flattenAction, h, Except.map]
    rw [lookup_insertAll_of_not_mem _ _ _ hkeys]
    simp [mapInsert, mapLookup]

/-- Witness for the amended C3. -/
theorem flatten_name_preserved_witness :
    (flattenAction
        { Name := "click",
          Context := some (Value.obj
            [("page", Value.obj [("url", Value.scalar (Scalar.str "/a"))])]) }).map
        (fun row => mapLookup row "name")
      = Except.ok (some (Scalar.str "click")) :=
  flatten_name_preserved _
    [("page", Value.obj [("url", Value.scalar (Scalar.str "/a"))])]
    (Or.inr rfl) (by simp [objLeafPaths])

/-- Claim C4: for a record whose context is a mapping, the keys of the
flattened row are exactly "name" together with the dotted key paths that
reach a non-mapping leaf of the context; in particular no key is produced
for an intermediate mapping node. -/
theorem flatten_keys_iff_leaf_paths (a : Action) (o : List (String × Value))
    (row : List (String × Scalar)) (hc : a.Context = some (Value.obj o))
    (hr : flattenAction a = Except.ok row) (k : String) :
    k ∈ row.map Prod.fst ↔ (k = "name" ∨ k ∈ objLeafPaths o) := by
  simp only [flattenAction, hc] at hr
  injection hr with hr
  subst hr
  rw [mem_keys_insertAll, flattenEntries_keys]
  simp [mapInsert]

/-- Witness for C4: the context a ↦ (b ↦ (c ↦ 1)) yields exactly the keys
"name" and "a.b.c", and no intermediate key "a.b". -/
theorem flatten_keys_iff_leaf_paths_witness :
    ("a.b" ∈ ([("name", Scalar.str "click"), ("a.b.c", Scalar.int 1)]
          : List (String × Scalar)).map Prod.fst ↔
      ("a.b" = "name" ∨ "a.b" ∈ objLeafPaths
        [("a", Value.obj [("b", Value.obj [("c", Value.scalar (Scalar.int 1))])])]))
    ∧ "a.b" ∉ ([("name", Scalar.str "click"), ("a.b.c", Scalar.int 1)]
          : List (String × Scalar)).map Prod.fst
    ∧ "a.b.c" ∈ ([("name", Scalar.str "click"), ("a.b.c", Scalar.int 1)]
          : List (String × Scalar)).map Prod.fst :=
  ⟨flatten_keys_iff_leaf_paths
      { Name := "click",
        Context := some (Value.obj
          [("a", Value.obj [("b", Value.obj [("c", Value.scalar (Scalar.int 1))])])]) }
      [("a", Value.obj [("b", Value.obj [("c", Value.scalar (Scalar.int 1))])])]
      [("name", Scalar.str "click"), ("a.b.c", Scalar.int 1)] rfl
      (by simp [flattenAction, flattenEntries, insertAll, mapInsert]) "a.b",
   by decide, by decide⟩

/-- Claim C5 counterexample: a context containing both the literal key
"a.b" and the nested path a ↦ b produces different flattened records
under two iteration orders of the same mapping (the two orders are
permutations of each other, i.e. the same Go map). -/
theorem flatten_collision_order_cex :
    ([("a.b", Value.scalar (Scalar.int 1)),
      ("a", Value.obj [("b", Value.scalar (Scalar.int 2))])] : List (String × Value)).Perm
      [("a", Value.obj [("b", Value.scalar (Scalar.int 2))]),
       ("a.b", Value.scalar (Scalar.int 1))]
    ∧ mapLookup (flattenMapIntoColumns
        [("a.b", Value.scalar (Scalar.int 1)),
         ("a", Value.obj [("b", Value.scalar (Scalar.int 2))])]) "a.b"
      ≠ mapLookup (flattenMapIntoColumns
        [("a", Value.obj [("b", Value.scalar (Scalar.int 2))]),
         ("a.b", Value.scalar (Scalar.int 1))]) "a.b" := by
  constructor
  · exact List.Perm.swap _ _ _
  · simp [flattenMapIntoColumns, flattenEntries, buildMap, insertAll, mapInsert, mapLookup]

/-- Claim C5 (amended): flattening is a pure function of the record and
the iteration order, and for every context whose flattened leaf paths are
pairwise distinct (no collision between a literal dotted key and a nested
path), the flattened record is independent of the iteration order: any
permutation of the context entries yields the same mapping. -/
theorem flatten_nodup_perm_invariant (o₁ o₂ : List (String × Value))
    (hp : o₁.Perm o₂) (hnd : (objLeafPaths o₁).Nodup) (key : String) :
    mapLookup (flattenMapIntoColumns o₁) key = mapLookup (flattenMapIntoColumns o₂) key := by
  have hnd₁ : ((flattenEntries o₁).map Prod.fst).Nodup := by
    rw [flattenEntries_keys o₁]
    exact hnd
  have hfp := flattenEntries_perm hp
  have hnd₂ : ((flattenEntries o₂).map Prod.fst).Nodup := (hfp.map Prod.fst).nodup_iff.mp hnd₁
  rw [flattenMapIntoColumns, flattenMapIntoColumns, buildMap_eq_self hnd₁,
    buildMap_eq_self hnd₂]
  exact lookup_perm_of_nodup hfp hnd₁ key

/-- Witness for the amended C5. -/
theorem flatten_nodup_perm_invariant_witness :
    mapLookup (flattenMapIntoColumns
      [("a", Value.scalar (Scalar.int 1)),
       ("b", Value.obj [("c", Value.scalar (Scalar.int 2))])]) "b.c"
    = mapLookup (flattenMapIntoColumns
      [("b", Value.obj [("c", Value.scalar (Scalar.int 2))]),
       ("a", Value.scalar (Scalar.int 1))]) "b.c" :=
  flatten_nodup_perm_invariant _ _ (List.Perm.swap _ _ _) (by simp [objLeafPaths]) "b.c"

/-- Claim C6: a record with absent context flattens to exactly the
one-entry mapping name ↦ record name. -/
theorem flatten_absent_context (nm : String) :
    flattenAction { Name := nm, Context := none }
      = Except.ok [("name", Scalar.str nm)] := rfl

/-- Claim C7: with empty fields and empty filters, the selected columns
are exactly the union of all keys other than "name" occurring across the
records. -/
theorem collect_default_union (rows : List (List (String × Scalar))) (key : String) :
    key ∈ collectContextColumns rows [] []
      ↔ key ≠ "name" ∧ ∃ row ∈ rows, key ∈ row.map Prod.fst := by
  rw [mem_collectContextColumns_iff]
  unfold includeCond
  simp only [ne_eq, not_true_eq_false, false_and, not_false_eq_true, true_and,
    List.not_mem_nil, false_implies, implies_true, or_true, and_true]
  tauto

/-- Claim C8: the selected column list never contains a duplicate column
name, whatever the records and patterns. -/
theorem collect_columns_nodup (rows : List (List (String × Scalar)))
    (fields filters : List String) :
    (collectContextColumns rows fields filters).Nodup :=
  nodup_collectContextColumns rows fields filters

/-- Claim C9: when every record context is absent or a mapping, the
flattening path never reaches its error branch. -/
theorem flatten_wellformed_no_error (actions : List Action)
    (h : ∀ a ∈ actions, contextWellFormed a.Context = true) :
    (flattenActions actions).isOk = true := by
  induction actions with
  | nil => rfl
  | cons a rest ih =>
      have ha := h a (List.mem_cons_self a rest)
      have hok : ∃ row, flattenAction a = Except.ok row := by
        cases hc : a.Context with
        | none =>
            exact ⟨mapInsert [] "name" (Scalar.str a.Name), by simp [flattenAction, hc]⟩
        | some v =>
            cases v with
            | obj o =>
                exact ⟨insertAll (mapInsert [] "name" (Scalar.str a.Name))
                  (flattenEntries o), by simp [flattenAction, hc]⟩
            | scalar s =>
                rw [hc] at ha
                simp [contextWellFormed] at ha
      obtain ⟨row, hrow⟩ := hok
      have hrest := ih (fun b hb => h b (List.mem_cons_of_mem _ hb))
      simp only [flattenActions, hrow]
      cases hr : flattenActions rest with
      | error e =>
          rw [hr] at hrest
          simp [Except.isOk, Except.toBool] at hrest
      | ok rows => simp [Except.isOk, Except.toBool]

/-- Witness for C9. -/
theorem flatten_wellformed_no_error_witness :
    (flattenActions
      [{ Name := "a", Context := none },
       { Name := "b", Context := some (Value.obj [("x", Value.scalar Scalar.null)]) }]).isOk
      = true :=
  flatten_wellformed_no_error _ (by decide)

/-- Claim C10: the selected columns never contain "name", whatever the
field and filter patterns. -/
theorem collect_never_includes_name (rows : List (List (String × Scalar)))
    (fields filters : List String) :
    "name" ∉ collectContextColumns rows fields filters := by
  intro hmem
  exact ((mem_collectContextColumns_iff rows fields filters "name").mp hmem).2.1 rfl

end DdCli
